import Mathlib

/-!
# Verification of the chat-cli-rs transcript codec and completion handling

Shallow embedding of `src/main.rs` of `RyanGreenup/chat-cli-rs`.

Documents (file contents) are modelled as `List Char`; a missing backing
file is identified with the empty document, because `Message::append`
creates the file before appending when it does not exist.  The fallible
Rust paths that abort the process (the todo arm, unwrap on None) are
modelled with the `PanicOr` result type; file-handle errors (the
question-mark operators on `File` calls) are out of scope, as the spec
places store concerns at the orchestrator boundary.
-/

namespace ChatCli

/-- Characters of a string literal, used to write document fragments. -/
def str (s : String) : List Char := s.data

/-- Models `openai::chat::ChatCompletionMessageRole`: the four role tags
of the transport vocabulary. -/
inductive Role : Type where
  | System : Role
  | User : Role
  | Assistant : Role
  | Function : Role
deriving DecidableEq, Repr

/-- Models `struct Message { role, content }` from `main.rs`. -/
structure Message : Type where
  role : Role
  content : List Char
deriving DecidableEq, Repr

/-- Result of a Rust code path that either produces a value or aborts the
process with a panic message (`todo!`, `unwrap`). -/
inductive PanicOr (α : Type) : Type where
  | ok : α → PanicOr α
  | panic : List Char → PanicOr α
deriving DecidableEq, Repr

/-- Rust `str::trim_end` on our character lists: drop trailing whitespace. -/
def trimRight (l : List Char) : List Char :=
  (l.reverse.dropWhile Char.isWhitespace).reverse

/-- Rust leading-whitespace removal (the left half of `str::trim`). -/
def trimLeft (l : List Char) : List Char :=
  l.dropWhile Char.isWhitespace

/-- Rust `str::trim`: drop leading and trailing whitespace. -/
def trim (l : List Char) : List Char :=
  trimRight (trimLeft l)

/-- Split a character list at every newline.  Always returns at least one
(possibly empty) fragment; fragments do not contain a newline. -/
def splitNL : List Char → List (List Char)
  | [] => [[]]
  | c :: cs =>
    if c = '\n' then [] :: splitNL cs
    else (c :: (splitNL cs).headI) :: (splitNL cs).tail

/-- Rejoin fragments, terminating every fragment with a newline. -/
def unlines : List (List Char) → List Char
  | [] => []
  | l :: ls => l ++ '\n' :: unlines ls

/-- Drop the final fragment when it is empty: `str::lines` does not yield
a last empty segment after a trailing newline (`split_terminator`). -/
def dropLastEmpty : List (List Char) → List (List Char)
  | [] => []
  | [l] => if l = [] then [] else [l]
  | l :: l' :: ls => l :: dropLastEmpty (l' :: ls)

/-- Rust `str::lines` strips one carriage return at the end of a line. -/
def stripCR (l : List Char) : List Char :=
  if l.getLast? = some '\r' then l.dropLast else l

/-- Rust `contents.lines()`: split at newlines, drop the trailing empty
segment, strip a final carriage return from each line. -/
def rustLines (doc : List Char) : List (List Char) :=
  (dropLastEmpty (splitNL doc)).map stripCR

/-- The heading string `"# User"` (local `user_heading` in `read_messages`). -/
def user_heading : List Char := str "# User"

/-- The heading string `"# Assistant"`. -/
def assistant_heading : List Char := str "# Assistant"

/-- The heading string `"# System"`. -/
def system_heading : List Char := str "# System"

/-- Panic message of the `todo!` arm in `Message::append` for
`ChatCompletionMessageRole::Function`. -/
def todoMsg : List Char :=
  str "not yet implemented: I\x27m not sure if this needs to become unimplemented, I haven\x27t read this new feature"

/-- Models `Message::append(content, role, chat_file)`: the document after
appending the rendered section for `role` to `doc`.  Each `writeln!` emits
its text followed by a newline; the `Function` arm is a `todo!` panic. -/
def Message.append (content : List Char) (role : Role) (doc : List Char) :
    PanicOr (List Char) :=
  match role with
  | Role.System =>
      PanicOr.ok (doc ++ str "# System\n" ++ trim content ++ str "\n" ++ str "# User\n\n")
  | Role.User =>
      PanicOr.ok (doc ++ str "# User\n" ++ trim content ++ str "\n")
  | Role.Assistant =>
      PanicOr.ok (doc ++ str "# Assistant\n" ++ trim content ++ str "\n" ++ str "# User\n\n")
  | Role.Function => PanicOr.panic todoMsg

/-- Models `Message::first(role, content, chat_file)`: removes the chat
file when it exists and then appends to the (now absent, hence empty)
document.  The pre-existing document `doc` is deleted. -/
def Message.first (content : List Char) (role : Role) (_doc : List Char) :
    PanicOr (List Char) :=
  let cleared : List Char := []
  Message.append content role cleared

/-- Push the accumulated section as a message when a role is active:
the `if let Some(role) = current_role` block of `read_messages`. -/
def flushState (cr : Option Role) (cc : List Char) : List Message :=
  match cr with
  | some r => [⟨r, trimRight cc⟩]
  | none => []

/-- The line loop of `Message::read_messages`: `cr` is `current_role`,
`cc` is `current_content`, `msgs` the messages pushed so far.  A line
starting with one of the three headings flushes the section; only an
exact heading changes the role (the wildcard arm just logs).  Any other
line is accumulated followed by a newline. -/
def readLoop : List (List Char) → Option Role → List Char → List Message → List Message
  | [], cr, cc, msgs => msgs ++ flushState cr cc
  | line :: rest, cr, cc, msgs =>
    if user_heading.isPrefixOf line || assistant_heading.isPrefixOf line
        || system_heading.isPrefixOf line then
      readLoop rest
        (if line = user_heading then some Role.User
         else if line = assistant_heading then some Role.Assistant
         else if line = system_heading then some Role.System
         else cr)
        [] (msgs ++ flushState cr cc)
    else
      readLoop rest cr (cc ++ line ++ ['\n']) msgs

/-- Models `Message::read_messages(file)` on the document contents
(reading the file itself is orchestrator I/O). -/
def Message.read_messages (doc : List Char) : List Message :=
  readLoop (rustLines doc) none [] []

/-- Sequentially append each message of a transcript to a document,
propagating a panic: the encoder used by the orchestrator loop. -/
def encodeFrom (doc : List Char) : List Message → PanicOr (List Char)
  | [] => PanicOr.ok doc
  | m :: ms =>
    match Message.append m.content m.role doc with
    | PanicOr.ok d => encodeFrom d ms
    | PanicOr.panic s => PanicOr.panic s

/-- Encoding a transcript: `Message::append` for each message in order,
starting from the empty document. -/
def encode (t : List Message) : PanicOr (List Char) :=
  encodeFrom [] t

/-- One returned choice of the remote completion, as consumed by
`request_chat_completion` (`choices.first().unwrap().message`). -/
structure ChatMsg : Type where
  role : Role
  content : Option (List Char)
deriving DecidableEq, Repr

/-- Models `request_chat_completion` after the transport returned the
completion: `choices.first()` is `None` on an empty choice list and the
`unwrap` panics; otherwise the first message is returned. -/
def request_chat_completion (choices : List ChatMsg) : PanicOr ChatMsg :=
  match choices with
  | [] => PanicOr.panic (str "called `Option::unwrap()` on a `None` value")
  | c :: _ => PanicOr.ok c

/-! ## Specification-side views used to state the claims -/

/-- A line neither heading-prefixed (so the decoder accumulates it
verbatim) nor ending in a carriage return (so `lines` keeps it intact). -/
def goodLine (l : List Char) : Prop :=
  user_heading.isPrefixOf l = false ∧ assistant_heading.isPrefixOf l = false
    ∧ system_heading.isPrefixOf l = false ∧ stripCR l = l

instance (l : List Char) : Decidable (goodLine l) := by
  unfold goodLine; infer_instance

/-- Whitespace-normalized content whose lines survive the decoder
untouched. -/
def goodContent (c : List Char) : Prop :=
  trim c = c ∧ ∀ l ∈ splitNL c, goodLine l

instance (c : List Char) : Decidable (goodContent c) := by
  unfold goodContent; infer_instance

/-- Every message role is one the codec supports (not `Function`). -/
def SupportedRoles (t : List Message) : Prop :=
  ∀ m ∈ t, m.role ≠ Role.Function

instance (t : List Message) : Decidable (SupportedRoles t) := by
  unfold SupportedRoles; infer_instance

/-- Supported roles together with decoder-safe contents. -/
def GoodTranscript (t : List Message) : Prop :=
  ∀ m ∈ t, m.role ≠ Role.Function ∧ goodContent m.content

instance (t : List Message) : Decidable (GoodTranscript t) := by
  unfold GoodTranscript; infer_instance

/-- The transcript with an empty `User` message inserted after every
`System` and `Assistant` message: what the primed empty `# User`
sections decode back to. -/
def primeGhost : List Message → List Message
  | [] => []
  | m :: ms =>
    match m.role with
    | Role.User => m :: primeGhost ms
    | Role.Function => m :: primeGhost ms
    | Role.System => m :: ⟨Role.User, []⟩ :: primeGhost ms
    | Role.Assistant => m :: ⟨Role.User, []⟩ :: primeGhost ms

/-- The bytes `Message.append` adds to the document for one message
(empty for the panicking `Function` arm). -/
def secBytes (m : Message) : List Char :=
  match m.role with
  | Role.System => str "# System\n" ++ trim m.content ++ str "\n" ++ str "# User\n\n"
  | Role.User => str "# User\n" ++ trim m.content ++ str "\n"
  | Role.Assistant => str "# Assistant\n" ++ trim m.content ++ str "\n" ++ str "# User\n\n"
  | Role.Function => []

/-- Concatenated section bytes of a whole transcript. -/
def docBytes : List Message → List Char
  | [] => []
  | m :: ms => secBytes m ++ docBytes ms

/-- The lines a message contributes to the encoded document. -/
def secLines (m : Message) : List (List Char) :=
  match m.role with
  | Role.System => system_heading :: splitNL (trim m.content) ++ [user_heading, []]
  | Role.User => user_heading :: splitNL (trim m.content)
  | Role.Assistant => assistant_heading :: splitNL (trim m.content) ++ [user_heading, []]
  | Role.Function => []

/-- Lines of the whole encoded document. -/
def docLines : List Message → List (List Char)
  | [] => []
  | m :: ms => secLines m ++ docLines ms

/-- Whether a line is byte-for-byte one of the three role headings. -/
def exactHeading (l : List Char) : Bool :=
  l == user_heading || l == assistant_heading || l == system_heading

/-- Group the lines of a document into the part before the first exact
heading and one group per exact heading line. -/
def sectionSplitAux (cur : Option (List Char) × List (List Char)) :
    List (List Char) → List (Option (List Char) × List (List Char))
  | [] => [cur]
  | l :: ls =>
    if exactHeading l then cur :: sectionSplitAux (some l, []) ls
    else sectionSplitAux (cur.1, cur.2 ++ [l]) ls

/-- Heading sequence of a document together with each section body up to
trailing-whitespace normalization: two documents are equal "modulo
trailing-whitespace normalization per section" when this view agrees. -/
def docSections (doc : List Char) : List (Option (List Char) × List Char) :=
  (sectionSplitAux (none, []) (rustLines doc)).map
    (fun p => (p.1, trimRight (unlines p.2)))

/-- Whether `pat` occurs as a contiguous subsequence of `l`. -/
def containsSeq (pat : List Char) : List Char → Bool
  | [] => pat.isPrefixOf []
  | c :: rest => pat.isPrefixOf (c :: rest) || containsSeq pat rest

/-! ## Line-splitting lemmas -/

theorem splitNL_ne_nil (s : List Char) : splitNL s ≠ [] := by
  cases s with
  | nil => simp [splitNL]
  | cons c cs =>
    unfold splitNL
    split <;> simp

theorem splitNL_cons (c : Char) (cs : List Char) :
    splitNL (c :: cs) = if c = '\n' then [] :: splitNL cs
      else (c :: (splitNL cs).headI) :: (splitNL cs).tail := rfl

theorem splitNL_exists_cons (s : List Char) :
    ∃ h t, splitNL s = h :: t := by
  cases hsa : splitNL s with
  | nil => exact absurd hsa (splitNL_ne_nil s)
  | cons h t => exact ⟨h, t, rfl⟩

theorem splitNL_append (a b : List Char) :
    splitNL (a ++ '\n' :: b) = splitNL a ++ splitNL b := by
  induction a with
  | nil => simp [splitNL]
  | cons c a ih =>
    by_cases hc : c = '\n'
    · subst hc
      rw [List.cons_append, splitNL_cons, if_pos rfl, ih, splitNL_cons, if_pos rfl,
        List.cons_append]
    · obtain ⟨h, t, hht⟩ := splitNL_exists_cons a
      rw [List.cons_append, splitNL_cons, if_neg hc, ih, splitNL_cons, if_neg hc, hht]
      simp

theorem unlines_splitNL (s : List Char) : unlines (splitNL s) = s ++ ['\n'] := by
  induction s with
  | nil => simp [splitNL, unlines]
  | cons c s ih =>
    by_cases hc : c = '\n'
    · subst hc
      rw [splitNL_cons, if_pos rfl, unlines, ih]
      simp
    · obtain ⟨h, t, hht⟩ := splitNL_exists_cons s
      rw [hht, unlines] at ih
      rw [splitNL_cons, if_neg hc, hht]
      simp only [List.headI, List.tail_cons, unlines, List.cons_append, ih]

theorem dropLastEmpty_concat (xs : List (List Char)) :
    dropLastEmpty (xs ++ [[]]) = xs := by
  induction xs with
  | nil => simp [dropLastEmpty]
  | cons x xs ih =>
    cases xs with
    | nil => simp [dropLastEmpty]
    | cons y ys => simpa [dropLastEmpty] using ih

/-! ## Trimming lemmas -/

theorem dropWhile_idem (p : Char → Bool) (l : List Char) :
    List.dropWhile p (List.dropWhile p l) = List.dropWhile p l := by
  induction l with
  | nil => rfl
  | cons c l ih =>
    by_cases h : p c
    · simpa [List.dropWhile, h] using ih
    · simp [List.dropWhile, h]

theorem trimRight_idem (l : List Char) : trimRight (trimRight l) = trimRight l := by
  simp [trimRight, dropWhile_idem]

theorem trimRight_trim (l : List Char) : trimRight (trim l) = trim l := by
  simp [trim, trimRight_idem]

theorem trimRight_append_ws (x : List Char) (c : Char)
    (h : Char.isWhitespace c = true) : trimRight (x ++ [c]) = trimRight x := by
  simp [trimRight, List.dropWhile, h]

theorem trimLeft_eq_self_of_head (y : List Char)
    (h : ∀ hd, y.head? = some hd → Char.isWhitespace hd = false) :
    trimLeft y = y := by
  cases y with
  | nil => rfl
  | cons c l => simp [trimLeft, List.dropWhile, h c rfl]

theorem head?_trimRight (y : List Char) (hne : trimRight y ≠ []) :
    (trimRight y).head? = y.head? := by
  have hsuff : List.IsSuffix (List.dropWhile Char.isWhitespace y.reverse) y.reverse :=
    List.dropWhile_suffix _
  have hpre : List.IsPrefix (trimRight y) y := by
    have := List.reverse_prefix.mpr hsuff
    simpa [trimRight] using this
  obtain ⟨t, ht⟩ := hpre
  cases hcase : trimRight y with
  | nil => exact absurd hcase hne
  | cons a l =>
    rw [hcase] at ht
    rw [← ht]
    simp

theorem trimLeft_trim (l : List Char) : trimLeft (trim l) = trim l := by
  apply trimLeft_eq_self_of_head
  intro hd hhd
  by_cases hne : trimRight (trimLeft l) = []
  · rw [trim, hne] at hhd; simp at hhd
  · rw [trim, head?_trimRight _ hne] at hhd
    cases hl : trimLeft l with
    | nil => rw [hl] at hhd; simp at hhd
    | cons c cs =>
      rw [hl] at hhd
      simp only [List.head?_cons, Option.some.injEq] at hhd
      subst hhd
      have := List.head?_dropWhile_not Char.isWhitespace l
      rw [show List.dropWhile Char.isWhitespace l = trimLeft l from rfl, hl] at this
      simpa using this

theorem trim_idem (l : List Char) : trim (trim l) = trim l := by
  rw [trim, trimLeft_trim, trimRight_trim]

theorem trimRight_append_newline (x : List Char) :
    trimRight (x ++ ['\n']) = trimRight x :=
  trimRight_append_ws x '\n' (by decide)

theorem trimRight_single_nl : trimRight ['\n'] = [] := by decide

/-! ## Byte-level shape of the rendered sections -/

theorem str_system_cons (X : List Char) :
    str "# System\n" ++ X = system_heading ++ '\n' :: X := rfl

theorem str_user_cons (X : List Char) :
    str "# User\n" ++ X = user_heading ++ '\n' :: X := rfl

theorem str_assistant_cons (X : List Char) :
    str "# Assistant\n" ++ X = assistant_heading ++ '\n' :: X := rfl

theorem str_user_blank_cons (X : List Char) :
    str "# User\n\n" ++ X = user_heading ++ '\n' :: '\n' :: X := rfl

theorem str_nl_cons (X : List Char) : str "\n" ++ X = '\n' :: X := rfl

theorem splitNL_system : splitNL system_heading = [system_heading] := rfl

theorem splitNL_user : splitNL user_heading = [user_heading] := rfl

theorem splitNL_assistant : splitNL assistant_heading = [assistant_heading] := rfl

theorem splitNL_cons_nl (X : List Char) : splitNL ('\n' :: X) = [] :: splitNL X := by
  rw [splitNL_cons, if_pos rfl]

/-! ## The encoder in closed form -/

theorem encodeFrom_ok (t : List Message) :
    ∀ doc, SupportedRoles t → encodeFrom doc t = PanicOr.ok (doc ++ docBytes t) := by
  induction t with
  | nil => intro doc _; simp [encodeFrom, docBytes]
  | cons m ms ih =>
    intro doc h
    obtain ⟨hrole, hms⟩ := List.forall_mem_cons.mp h
    obtain ⟨r, c⟩ := m
    cases r with
    | Function => exact absurd rfl hrole
    | System =>
      rw [show encodeFrom doc (⟨Role.System, c⟩ :: ms)
          = encodeFrom (doc ++ str "# System\n" ++ trim c ++ str "\n" ++ str "# User\n\n") ms
          from rfl, ih _ hms]
      simp [docBytes, secBytes, List.append_assoc]
    | User =>
      rw [show encodeFrom doc (⟨Role.User, c⟩ :: ms)
          = encodeFrom (doc ++ str "# User\n" ++ trim c ++ str "\n") ms
          from rfl, ih _ hms]
      simp [docBytes, secBytes, List.append_assoc]
    | Assistant =>
      rw [show encodeFrom doc (⟨Role.Assistant, c⟩ :: ms)
          = encodeFrom (doc ++ str "# Assistant\n" ++ trim c ++ str "\n" ++ str "# User\n\n") ms
          from rfl, ih _ hms]
      simp [docBytes, secBytes, List.append_assoc]

theorem splitNL_docBytes (t : List Message) :
    splitNL (docBytes t) = docLines t ++ [[]] := by
  induction t with
  | nil => rfl
  | cons m ms ih =>
    obtain ⟨r, c⟩ := m
    cases r with
    | Function =>
      simpa [docBytes, secBytes, docLines, secLines] using ih
    | System =>
      simp only [docBytes, secBytes, docLines, secLines, List.append_assoc,
        str_system_cons, str_nl_cons, str_user_blank_cons, splitNL_append,
        splitNL_system, splitNL_user, splitNL_cons_nl, ih, List.cons_append,
        List.nil_append, List.append_nil]
    | User =>
      simp only [docBytes, secBytes, docLines, secLines, List.append_assoc,
        str_user_cons, str_nl_cons, splitNL_append, splitNL_user, splitNL_cons_nl,
        ih, List.cons_append, List.nil_append, List.append_nil]
    | Assistant =>
      simp only [docBytes, secBytes, docLines, secLines, List.append_assoc,
        str_assistant_cons, str_nl_cons, str_user_blank_cons, splitNL_append,
        splitNL_assistant, splitNL_user, splitNL_cons_nl, ih, List.cons_append,
        List.nil_append, List.append_nil]

theorem map_stripCR_eq_self (ls : List (List Char)) (h : ∀ l ∈ ls, stripCR l = l) :
    ls.map stripCR = ls := by
  induction ls with
  | nil => rfl
  | cons l ls ih =>
    obtain ⟨hl, hls⟩ := List.forall_mem_cons.mp h
    simp [hl, ih hls]

theorem stripCR_docLines (t : List Message)
    (h : ∀ m ∈ t, goodContent m.content) :
    ∀ l ∈ docLines t, stripCR l = l := by
  induction t with
  | nil => simp [docLines]
  | cons m ms ih =>
    obtain ⟨⟨htrim, hlines⟩, hms⟩ := List.forall_mem_cons.mp h
    intro l hl
    rw [docLines, List.mem_append] at hl
    rcases hl with hl | hl
    · obtain ⟨r, c⟩ := m
      have hcontent : ∀ l ∈ splitNL (trim c), stripCR l = l := by
        intro l hlc
        rw [htrim] at hlc
        exact (hlines l hlc).2.2.2
      cases r with
      | Function => simp [secLines] at hl
      | User =>
        simp only [secLines, List.mem_cons] at hl
        rcases hl with rfl | hl
        · rfl
        · exact hcontent l hl
      | System =>
        simp only [secLines, List.mem_cons, List.mem_append, List.mem_singleton,
          List.not_mem_nil, or_false] at hl
        rcases hl with (rfl | hl) | rfl | rfl
        · rfl
        · exact hcontent l hl
        · rfl
        · rfl
      | Assistant =>
        simp only [secLines, List.mem_cons, List.mem_append, List.mem_singleton,
          List.not_mem_nil, or_false] at hl
        rcases hl with (rfl | hl) | rfl | rfl
        · rfl
        · exact hcontent l hl
        · rfl
        · rfl
    · exact ih hms l hl

theorem rustLines_docBytes (t : List Message)
    (h : ∀ m ∈ t, goodContent m.content) :
    rustLines (docBytes t) = docLines t := by
  rw [rustLines, splitNL_docBytes, dropLastEmpty_concat]
  exact map_stripCR_eq_self _ (stripCR_docLines t h)

/-! ## Stepping the decoder loop -/

theorem readLoop_heading_user (rest : List (List Char)) (cr : Option Role)
    (cc : List Char) (msgs : List Message) :
    readLoop (user_heading :: rest) cr cc msgs
      = readLoop rest (some Role.User) [] (msgs ++ flushState cr cc) := rfl

theorem readLoop_heading_assistant (rest : List (List Char)) (cr : Option Role)
    (cc : List Char) (msgs : List Message) :
    readLoop (assistant_heading :: rest) cr cc msgs
      = readLoop rest (some Role.Assistant) [] (msgs ++ flushState cr cc) := rfl

theorem readLoop_heading_system (rest : List (List Char)) (cr : Option Role)
    (cc : List Char) (msgs : List Message) :
    readLoop (system_heading :: rest) cr cc msgs
      = readLoop rest (some Role.System) [] (msgs ++ flushState cr cc) := rfl

theorem readLoop_other (l : List Char) (rest : List (List Char)) (cr : Option Role)
    (cc : List Char) (msgs : List Message)
    (h1 : user_heading.isPrefixOf l = false)
    (h2 : assistant_heading.isPrefixOf l = false)
    (h3 : system_heading.isPrefixOf l = false) :
    readLoop (l :: rest) cr cc msgs = readLoop rest cr (cc ++ l ++ ['\n']) msgs := by
  simp [readLoop, h1, h2, h3]

theorem readLoop_blank (rest : List (List Char)) (cr : Option Role)
    (cc : List Char) (msgs : List Message) :
    readLoop ([] :: rest) cr cc msgs = readLoop rest cr (cc ++ ['\n']) msgs := by
  rw [readLoop_other [] rest cr cc msgs (by decide) (by decide) (by decide)]
  simp

theorem readLoop_accum (ls : List (List Char)) :
    ∀ (rest : List (List Char)) (cr : Option Role) (cc : List Char)
      (msgs : List Message),
      (∀ l ∈ ls, user_heading.isPrefixOf l = false
        ∧ assistant_heading.isPrefixOf l = false
        ∧ system_heading.isPrefixOf l = false) →
      readLoop (ls ++ rest) cr cc msgs = readLoop rest cr (cc ++ unlines ls) msgs := by
  induction ls with
  | nil => intro rest cr cc msgs _; simp [unlines]
  | cons l ls ih =>
    intro rest cr cc msgs h
    obtain ⟨⟨h1, h2, h3⟩, hls⟩ := List.forall_mem_cons.mp h
    rw [List.cons_append, readLoop_other l _ _ _ _ h1 h2 h3, ih _ _ _ _ hls]
    simp [unlines]

/-! ## Decoding the lines of an encoded transcript -/

theorem readLoop_docLines (t : List Message) :
    ∀ (cr : Option Role) (cc : List Char) (msgs : List Message),
      GoodTranscript t →
      readLoop (docLines t) cr cc msgs = (msgs ++ flushState cr cc) ++ primeGhost t := by
  induction t with
  | nil => intro cr cc msgs _; simp [docLines, readLoop, primeGhost]
  | cons m ms ih =>
    intro cr cc msgs h
    obtain ⟨⟨hrole, htrim, hlines⟩, hms⟩ := List.forall_mem_cons.mp h
    obtain ⟨r, c⟩ := m
    have hcontent : ∀ l ∈ splitNL (trim c), user_heading.isPrefixOf l = false
        ∧ assistant_heading.isPrefixOf l = false
        ∧ system_heading.isPrefixOf l = false := by
      intro l hlc
      rw [show trim ({ role := r, content := c } : Message).content
          = ({ role := r, content := c } : Message).content from htrim] at hlc
      obtain ⟨g1, g2, g3, _⟩ := hlines l hlc
      exact ⟨g1, g2, g3⟩
    have htrimc : trim c = c := htrim
    have htr : trimRight c = c := by rw [← htrimc]; exact trimRight_trim c
    cases r with
    | Function => exact absurd rfl hrole
    | User =>
      rw [show docLines (⟨Role.User, c⟩ :: ms)
          = user_heading :: (splitNL (trim c) ++ docLines ms) from by
            simp [docLines, secLines]]
      rw [readLoop_heading_user, readLoop_accum _ _ _ _ _ hcontent, ih _ _ _ hms]
      simp [flushState, primeGhost, unlines_splitNL, trimRight_append_newline,
        trimRight_trim, htrimc, htr, trimRight_single_nl]
    | System =>
      rw [show docLines (⟨Role.System, c⟩ :: ms)
          = system_heading :: (splitNL (trim c)
              ++ user_heading :: [] :: docLines ms) from by
            simp [docLines, secLines]]
      rw [readLoop_heading_system, readLoop_accum _ _ _ _ _ hcontent,
        readLoop_heading_user, readLoop_blank, ih _ _ _ hms]
      simp [flushState, primeGhost, unlines_splitNL, trimRight_append_newline,
        trimRight_trim, htrimc, htr, trimRight_single_nl]
    | Assistant =>
      rw [show docLines (⟨Role.Assistant, c⟩ :: ms)
          = assistant_heading :: (splitNL (trim c)
              ++ user_heading :: [] :: docLines ms) from by
            simp [docLines, secLines]]
      rw [readLoop_heading_assistant, readLoop_accum _ _ _ _ _ hcontent,
        readLoop_heading_user, readLoop_blank, ih _ _ _ hms]
      simp [flushState, primeGhost, unlines_splitNL, trimRight_append_newline,
        trimRight_trim, htrimc, htr, trimRight_single_nl]

/-- The central structural fact: decoding an encoded good transcript
yields the transcript with the primed empty `User` ghosts inserted. -/
theorem decode_encode_ghost (t : List Message) (d : List Char)
    (hgood : GoodTranscript t) (henc : encode t = PanicOr.ok d) :
    Message.read_messages d = primeGhost t := by
  have hsupp : SupportedRoles t := fun m hm => (hgood m hm).1
  have hcont : ∀ m ∈ t, goodContent m.content := fun m hm => (hgood m hm).2
  rw [encode, encodeFrom_ok t [] hsupp] at henc
  obtain rfl : docBytes t = d := by
    simpa using henc
  rw [Message.read_messages, rustLines_docBytes t hcont,
    readLoop_docLines t none [] [] hgood]
  simp [flushState]

/-! ## Loop invariants of the decoder -/

theorem asst_ne_user : assistant_heading ≠ user_heading := by decide

theorem sys_ne_user : system_heading ≠ user_heading := by decide

theorem sys_ne_asst : system_heading ≠ assistant_heading := by decide

theorem orFalse3 (a b c : Bool) (h : (a || b || c) = false) :
    a = false ∧ b = false ∧ c = false := by
  simp only [Bool.or_eq_false_iff] at h
  exact ⟨h.1.1, h.1.2, h.2⟩

theorem readLoop_heading_step (line : List Char) (rest : List (List Char))
    (cr : Option Role) (cc : List Char) (msgs : List Message)
    (hb : (user_heading.isPrefixOf line || assistant_heading.isPrefixOf line
      || system_heading.isPrefixOf line) = true) :
    readLoop (line :: rest) cr cc msgs
      = readLoop rest
          (if line = user_heading then some Role.User
           else if line = assistant_heading then some Role.Assistant
           else if line = system_heading then some Role.System else cr)
          [] (msgs ++ flushState cr cc) := by
  simp [readLoop, hb]

theorem mem_flushState (cr : Option Role) (cc : List Char) (m : Message)
    (hm : m ∈ flushState cr cc) : ∃ r, cr = some r ∧ m = ⟨r, trimRight cc⟩ := by
  cases cr with
  | none => simp [flushState] at hm
  | some r =>
    simp only [flushState, List.mem_singleton] at hm
    exact ⟨r, rfl, hm⟩

theorem readLoop_trimRight (lines : List (List Char)) :
    ∀ (cr : Option Role) (cc : List Char) (msgs : List Message),
      (∀ m ∈ msgs, trimRight m.content = m.content) →
      ∀ m ∈ readLoop lines cr cc msgs, trimRight m.content = m.content := by
  induction lines with
  | nil =>
    intro cr cc msgs h m hm
    simp only [readLoop] at hm
    rcases List.mem_append.mp hm with hm | hm
    · exact h m hm
    · obtain ⟨r, _, rfl⟩ := mem_flushState cr cc m hm
      exact trimRight_idem cc
  | cons line rest ih =>
    intro cr cc msgs h m hm
    cases hb : (user_heading.isPrefixOf line || assistant_heading.isPrefixOf line
        || system_heading.isPrefixOf line) with
    | true =>
      rw [readLoop_heading_step line rest cr cc msgs hb] at hm
      refine ih _ _ _ ?_ m hm
      intro m' hm'
      rcases List.mem_append.mp hm' with hm' | hm'
      · exact h m' hm'
      · obtain ⟨r, _, rfl⟩ := mem_flushState cr cc m' hm'
        exact trimRight_idem cc
    | false =>
      obtain ⟨h1, h2, h3⟩ := orFalse3 _ _ _ hb
      rw [readLoop_other line rest cr cc msgs h1 h2 h3] at hm
      exact ih _ _ _ h m hm

theorem readLoop_roles (lines : List (List Char)) :
    ∀ (cr : Option Role) (cc : List Char) (msgs : List Message),
      (∀ m ∈ msgs, m.role ≠ Role.Function) → cr ≠ some Role.Function →
      ∀ m ∈ readLoop lines cr cc msgs, m.role ≠ Role.Function := by
  induction lines with
  | nil =>
    intro cr cc msgs h hcr m hm
    simp only [readLoop] at hm
    rcases List.mem_append.mp hm with hm | hm
    · exact h m hm
    · obtain ⟨r, hr, rfl⟩ := mem_flushState cr cc m hm
      intro habs
      apply hcr
      have hrf : r = Role.Function := habs
      rw [hr, hrf]
  | cons line rest ih =>
    intro cr cc msgs h hcr m hm
    cases hb : (user_heading.isPrefixOf line || assistant_heading.isPrefixOf line
        || system_heading.isPrefixOf line) with
    | true =>
      rw [readLoop_heading_step line rest cr cc msgs hb] at hm
      refine ih _ _ _ ?_ ?_ m hm
      · intro m' hm'
        rcases List.mem_append.mp hm' with hm' | hm'
        · exact h m' hm'
        · obtain ⟨r, hr, rfl⟩ := mem_flushState cr cc m' hm'
          intro habs
          apply hcr
          have hrf : r = Role.Function := habs
          rw [hr, hrf]
      · by_cases e1 : line = user_heading
        · simp [e1]
        by_cases e2 : line = assistant_heading
        · simp [e1, e2, asst_ne_user]
        by_cases e3 : line = system_heading
        · simp [e1, e2, e3, sys_ne_user, sys_ne_asst]
        · simpa [e1, e2, e3] using hcr
    | false =>
      obtain ⟨h1, h2, h3⟩ := orFalse3 _ _ _ hb
      rw [readLoop_other line rest cr cc msgs h1 h2 h3] at hm
      exact ih _ _ _ h hcr m hm

theorem readLoop_cc_irrel (lines : List (List Char)) :
    ∀ (cc cc' : List Char) (msgs : List Message),
      readLoop lines none cc msgs = readLoop lines none cc' msgs := by
  induction lines with
  | nil => intro cc cc' msgs; simp [readLoop, flushState]
  | cons line rest ih =>
    intro cc cc' msgs
    cases hb : (user_heading.isPrefixOf line || assistant_heading.isPrefixOf line
        || system_heading.isPrefixOf line) with
    | true =>
      rw [readLoop_heading_step line rest none cc msgs hb,
        readLoop_heading_step line rest none cc' msgs hb]
      simp [flushState]
    | false =>
      obtain ⟨h1, h2, h3⟩ := orFalse3 _ _ _ hb
      rw [readLoop_other line rest none cc msgs h1 h2 h3,
        readLoop_other line rest none cc' msgs h1 h2 h3]
      exact ih _ _ _

theorem exactHeading_false_iff (l : List Char) (h : exactHeading l = false) :
    l ≠ user_heading ∧ l ≠ assistant_heading ∧ l ≠ system_heading := by
  obtain ⟨h1, h2, h3⟩ := orFalse3 _ _ _ h
  refine ⟨?_, ?_, ?_⟩ <;> intro e <;> subst e <;> simp at h1 h2 h3

theorem readLoop_preamble (p : List (List Char)) :
    ∀ (rest : List (List Char)) (cc : List Char) (msgs : List Message),
      (∀ l ∈ p, exactHeading l = false) →
      readLoop (p ++ rest) none cc msgs = readLoop rest none [] msgs := by
  induction p with
  | nil => intro rest cc msgs _; exact readLoop_cc_irrel rest cc [] msgs
  | cons line p ih =>
    intro rest cc msgs h
    obtain ⟨hline, hp⟩ := List.forall_mem_cons.mp h
    obtain ⟨e1, e2, e3⟩ := exactHeading_false_iff line hline
    rw [List.cons_append]
    cases hb : (user_heading.isPrefixOf line || assistant_heading.isPrefixOf line
        || system_heading.isPrefixOf line) with
    | true =>
      rw [readLoop_heading_step line _ none cc msgs hb]
      simp only [if_neg e1, if_neg e2, if_neg e3, flushState, List.append_nil]
      exact ih _ _ _ hp
    | false =>
      obtain ⟨h1, h2, h3⟩ := orFalse3 _ _ _ hb
      rw [readLoop_other line _ none cc msgs h1 h2 h3]
      exact ih _ _ _ hp

/-! ## Encoder append lemmas -/

theorem docBytes_append (xs ys : List Message) :
    docBytes (xs ++ ys) = docBytes xs ++ docBytes ys := by
  induction xs with
  | nil => simp [docBytes]
  | cons m ms ih => simp [docBytes, ih]

theorem primeGhost_allUser (t : List Message)
    (h : ∀ m ∈ t, m.role = Role.User) : primeGhost t = t := by
  induction t with
  | nil => rfl
  | cons m ms ih =>
    obtain ⟨hm, hms⟩ := List.forall_mem_cons.mp h
    obtain ⟨r, c⟩ := m
    obtain rfl : r = Role.User := hm
    simp [primeGhost, ih hms]

/-! ## Claims -/

/-- C1, counterexample: the round trip fails as stated.  Encoding the
transcript `[System "x"]` (whitespace-normalized content) produces the
document `"# System\nx\n# User\n\n"`, whose decode is
`[System "x", User ""]`, not the original transcript: the primed empty
`# User` section decodes as an extra empty `User` message. -/
theorem C1_round_trip_counterexample :
    encode [⟨Role.System, str "x"⟩] = PanicOr.ok (str "# System\nx\n# User\n\n") ∧
    Message.read_messages (str "# System\nx\n# User\n\n")
      = [⟨Role.System, str "x"⟩, ⟨Role.User, []⟩] ∧
    Message.read_messages (str "# System\nx\n# User\n\n")
      ≠ [⟨Role.System, str "x"⟩] := by
  refine ⟨by decide, by decide, by decide⟩

/-- C1, amended: for a transcript with supported roles and
whitespace-normalized contents none of whose lines starts with a
recognized heading string or ends in a carriage return, decoding the
encoded document yields the transcript with an empty `User` message
inserted after every `System` and `Assistant` message (the primed
sections); in particular it is exactly the transcript when the
transcript contains only `User` messages. -/
theorem C1_round_trip_amended (t : List Message) (d : List Char)
    (hgood : GoodTranscript t) (henc : encode t = PanicOr.ok d) :
    Message.read_messages d = primeGhost t :=
  decode_encode_ghost t d hgood henc

theorem C1_round_trip_amended_witness :
    Message.read_messages (str "# System\nx\n# User\n\n")
      = primeGhost [⟨Role.System, str "x"⟩] :=
  C1_round_trip_amended [⟨Role.System, str "x"⟩] (str "# System\nx\n# User\n\n")
    (by decide) (by decide)

/-- C2: the code violates the heading-strictness claim on the side the
code itself labels a bug.  A line that extends a recognized heading,
such as `"# User extra"`, IS treated as a section break: it flushes the
accumulated section, its own text is discarded (not retained), and the
message is split in two (the wildcard match arm prints "This is a
bug!").  A line such as `"# Nope"`, which extends no recognized heading,
is retained verbatim as the claim says. -/
theorem C2_heading_prefix_divergence :
    Message.read_messages (str "# User\nabc\n# User extra\ndef\n")
      = [⟨Role.User, str "abc"⟩, ⟨Role.User, str "def"⟩] ∧
    Message.read_messages (str "# User\nabc\n# Nope\ndef\n")
      = [⟨Role.User, str "abc\n# Nope\ndef"⟩] := by
  refine ⟨by decide, by decide⟩

/-- C3, counterexample: decoding only trims trailing whitespace.
The document `"# User\n  x\n"` decodes to a message whose content
`"  x"` retains its leading whitespace, so stored contents are not free
of leading whitespace. -/
theorem C3_normalization_counterexample :
    Message.read_messages (str "# User\n  x\n") = [⟨Role.User, str "  x"⟩] ∧
    trimLeft (str "  x") ≠ str "  x" := by
  refine ⟨by decide, by decide⟩

/-- C3, amended: on write `Message.append` fully normalizes (it renders
`trim content`, so appending `content` and `trim content` coincide); on
read every message returned by `Message.read_messages` is free of
TRAILING whitespace only (`trim_end`), and may retain leading
whitespace. -/
theorem C3_normalization_amended :
    (∀ (c : List Char) (role : Role) (doc : List Char),
      Message.append c role doc = Message.append (trim c) role doc) ∧
    (∀ (doc : List Char), ∀ m ∈ Message.read_messages doc,
      trimRight m.content = m.content) := by
  constructor
  · intro c role doc
    cases role <;> simp [Message.append, trim_idem]
  · intro doc m hm
    exact readLoop_trimRight (rustLines doc) none [] [] (by simp) m hm

theorem C3_normalization_amended_witness :
    Message.append (str " a ") Role.User []
      = Message.append (trim (str " a ")) Role.User [] ∧
    ((⟨Role.User, str "  x"⟩ : Message) ∈ Message.read_messages (str "# User\n  x\n")
      ∧ trimRight (str "  x") = str "  x") :=
  ⟨C3_normalization_amended.1 (str " a ") Role.User [],
   by decide,
   C3_normalization_amended.2 (str "# User\n  x\n") ⟨Role.User, str "  x"⟩ (by decide)⟩

/-- C4: the priming invariant.  For a transcript of supported roles,
the document encoding `t ++ [System c]` or `t ++ [Assistant c]` ends
with the bytes of an empty `# User` section, while encoding
`t ++ [User c]` appends exactly the `# User` heading and the trimmed
content after the encoding of `t` — nothing (in particular no empty
`# User` section) follows that `User` message. -/
theorem C4_priming (t : List Message) (c : List Char)
    (hsupp : SupportedRoles t) :
    (∀ d, encode (t ++ [⟨Role.System, c⟩]) = PanicOr.ok d →
        List.IsSuffix (str "# User\n\n") d) ∧
    (∀ d, encode (t ++ [⟨Role.Assistant, c⟩]) = PanicOr.ok d →
        List.IsSuffix (str "# User\n\n") d) ∧
    (∀ d0, encode t = PanicOr.ok d0 →
        encode (t ++ [⟨Role.User, c⟩])
          = PanicOr.ok (d0 ++ str "# User\n" ++ trim c ++ str "\n")) := by
  have hext : ∀ r : Role, r ≠ Role.Function →
      SupportedRoles (t ++ [⟨r, c⟩]) := by
    intro r hr m hm
    rcases List.mem_append.mp hm with h | h
    · exact hsupp m h
    · simp only [List.mem_singleton] at h
      subst h
      exact hr
  refine ⟨?_, ?_, ?_⟩
  · intro d hd
    rw [encode, encodeFrom_ok _ _ (hext Role.System (by decide))] at hd
    obtain rfl : docBytes (t ++ [⟨Role.System, c⟩]) = d := by simpa using hd
    rw [docBytes_append]
    refine ⟨docBytes t ++ (str "# System\n" ++ (trim c ++ str "\n")), ?_⟩
    simp [docBytes, secBytes, List.append_assoc]
  · intro d hd
    rw [encode, encodeFrom_ok _ _ (hext Role.Assistant (by decide))] at hd
    obtain rfl : docBytes (t ++ [⟨Role.Assistant, c⟩]) = d := by simpa using hd
    rw [docBytes_append]
    refine ⟨docBytes t ++ (str "# Assistant\n" ++ (trim c ++ str "\n")), ?_⟩
    simp [docBytes, secBytes, List.append_assoc]
  · intro d0 hd0
    rw [encode, encodeFrom_ok _ _ hsupp] at hd0
    obtain rfl : docBytes t = d0 := by simpa using hd0
    rw [encode, encodeFrom_ok _ _ (hext Role.User (by decide)), docBytes_append]
    simp [docBytes, secBytes, List.append_assoc]

theorem C4_priming_witness :
    List.IsSuffix (str "# User\n\n") (str "# System\nx\n# User\n\n") ∧
    encode ([⟨Role.System, str "x"⟩] ++ [⟨Role.User, str "y"⟩])
      = PanicOr.ok (str "# System\nx\n# User\n\n"
          ++ str "# User\n" ++ trim (str "y") ++ str "\n") :=
  ⟨(C4_priming [] (str "x") (by decide)).1 (str "# System\nx\n# User\n\n") (by decide),
   (C4_priming [⟨Role.System, str "x"⟩] (str "y") (by decide)).2.2
     (str "# System\nx\n# User\n\n") (by decide)⟩

/-- C5, counterexample: appending a `Function`-role message does not
return an error identifying the unsupported role — it hits the `todo!`
arm, whose panic message ("not yet implemented: ...") mentions neither
"role", nor "Function", nor "unsupported". -/
theorem C5_function_role_counterexample :
    Message.append (str "x") Role.Function [] = PanicOr.panic todoMsg ∧
    containsSeq (str "role") todoMsg = false ∧
    containsSeq (str "Function") todoMsg = false ∧
    containsSeq (str "unsupported") todoMsg = false := by
  refine ⟨rfl, by decide, by decide, by decide⟩

/-- C5, amended: `Message.append` with the `Function` role always
aborts with the `todo!` panic ("not yet implemented", not an
"unsupported role" error value) and never succeeds, so it never renders
the message under any of the three recognized headings. -/
theorem C5_function_role_amended (doc c : List Char) :
    Message.append c Role.Function doc = PanicOr.panic todoMsg ∧
    ∀ d, Message.append c Role.Function doc ≠ PanicOr.ok d := by
  refine ⟨rfl, ?_⟩
  intro d h
  simp [Message.append] at h

theorem C5_function_role_amended_witness :
    Message.append (str "y") Role.Function (str "# User\nx\n")
      = PanicOr.panic todoMsg ∧
    Message.append (str "y") Role.Function (str "# User\nx\n")
      ≠ PanicOr.ok (str "# User\nx\n# User\ny\n") :=
  ⟨(C5_function_role_amended (str "# User\nx\n") (str "y")).1,
   (C5_function_role_amended (str "# User\nx\n") (str "y")).2
     (str "# User\nx\n# User\ny\n")⟩

/-- C6, counterexample: re-encoding the decode of the encoder-produced
document `"# System\nx\n# User\n\n"` yields
`"# System\nx\n# User\n\n# User\n\n"`, which differs from the original
even modulo trailing-whitespace normalization per section (it has an
extra `# User` section in its heading sequence). -/
theorem C6_reencode_counterexample :
    encode [⟨Role.System, str "x"⟩] = PanicOr.ok (str "# System\nx\n# User\n\n") ∧
    encode (Message.read_messages (str "# System\nx\n# User\n\n"))
      = PanicOr.ok (str "# System\nx\n# User\n\n# User\n\n") ∧
    docSections (str "# System\nx\n# User\n\n# User\n\n")
      ≠ docSections (str "# System\nx\n# User\n\n") := by
  refine ⟨by decide, by decide, by decide⟩

/-- C6, amended: re-encoding the decode reproduces the document exactly
for documents produced by encoding transcripts that contain only `User`
messages (with decoder-safe normalized contents); for documents whose
encoding transcript contains a `System` or `Assistant` message, the
primed empty `# User` section decodes to an explicit empty `User`
message and re-encoding emits one additional empty `# User` section per
primed section. -/
theorem C6_reencode_amended (t : List Message) (d : List Char)
    (hgood : GoodTranscript t) (huser : ∀ m ∈ t, m.role = Role.User)
    (henc : encode t = PanicOr.ok d) :
    encode (Message.read_messages d) = PanicOr.ok d := by
  rw [decode_encode_ghost t d hgood henc, primeGhost_allUser t huser, henc]

theorem C6_reencode_amended_witness :
    encode (Message.read_messages (str "# User\ny\n"))
      = PanicOr.ok (str "# User\ny\n") :=
  C6_reencode_amended [⟨Role.User, str "y"⟩] (str "# User\ny\n")
    (by decide) (by decide) (by decide)

/-- C7: appending with a supported role preserves every byte of the
pre-existing document and only adds a non-empty section after it, while
`Message.first` ignores (clears) the pre-existing document and appends
to the empty one. -/
theorem C7_append_only (doc c : List Char) (role : Role)
    (h : role ≠ Role.Function) :
    (∃ s, s ≠ [] ∧ Message.append c role doc = PanicOr.ok (doc ++ s)) ∧
    Message.first c role doc = Message.append c role [] := by
  have hne : ∀ (a b : List Char), a ≠ [] → a ++ b ≠ [] := by
    intro a b ha habs
    exact ha (List.append_eq_nil.mp habs).1
  refine ⟨?_, rfl⟩
  cases role with
  | Function => exact absurd rfl h
  | System =>
    refine ⟨str "# System\n" ++ trim c ++ str "\n" ++ str "# User\n\n",
      hne _ _ (hne _ _ (hne _ _ (by decide))), ?_⟩
    simp [Message.append, List.append_assoc]
  | User =>
    refine ⟨str "# User\n" ++ trim c ++ str "\n",
      hne _ _ (hne _ _ (by decide)), ?_⟩
    simp [Message.append, List.append_assoc]
  | Assistant =>
    refine ⟨str "# Assistant\n" ++ trim c ++ str "\n" ++ str "# User\n\n",
      hne _ _ (hne _ _ (hne _ _ (by decide))), ?_⟩
    simp [Message.append, List.append_assoc]

theorem C7_append_only_witness :
    (∃ s, s ≠ [] ∧ Message.append (str "b") Role.User (str "# System\na\n")
        = PanicOr.ok (str "# System\na\n" ++ s)) ∧
    Message.first (str "b") Role.User (str "# System\na\n")
      = Message.append (str "b") Role.User [] :=
  C7_append_only (str "# System\na\n") (str "b") Role.User (by decide)

/-- C8: with zero response choices, `request_chat_completion` hits
`choices.first().unwrap()` and panics (a fatal failure for the turn:
no message of any kind, in particular no empty-content `Assistant`
message, is returned), and it only ever returns a message when the
choice list is non-empty. -/
theorem C8_empty_choices_fatal :
    request_chat_completion []
      = PanicOr.panic (str "called `Option::unwrap()` on a `None` value") ∧
    ∀ (cs : List ChatMsg) (m : ChatMsg),
      request_chat_completion cs = PanicOr.ok m → cs ≠ [] := by
  refine ⟨rfl, ?_⟩
  intro cs m h hnil
  subst hnil
  simp [request_chat_completion] at h

theorem C8_empty_choices_fatal_witness :
    ([⟨Role.Assistant, some (str "4")⟩] : List ChatMsg) ≠ [] :=
  C8_empty_choices_fatal.2 [⟨Role.Assistant, some (str "4")⟩]
    ⟨Role.Assistant, some (str "4")⟩ rfl

/-- C9: role closure on decode — every message produced by
`Message.read_messages`, on any input document, has a role other than
`Function` (the loop only ever assigns `User`, `Assistant` or
`System`). -/
theorem C9_role_closure (doc : List Char) :
    ∀ m ∈ Message.read_messages doc, m.role ≠ Role.Function := by
  intro m hm
  exact readLoop_roles (rustLines doc) none [] [] (by simp) (by simp) m hm

theorem C9_role_closure_witness :
    (⟨Role.User, str "hi"⟩ : Message) ∈ Message.read_messages (str "# User\nhi\n")
      ∧ (⟨Role.User, str "hi"⟩ : Message).role ≠ Role.Function :=
  ⟨by decide, C9_role_closure (str "# User\nhi\n") ⟨Role.User, str "hi"⟩ (by decide)⟩

/-- C10: preamble lines are dropped — decoding any document equals
running the loop on the lines from the first exact heading onward (all
lines before it contribute nothing), and a document none of whose lines
is an exact heading decodes to the empty message list. -/
theorem C10_preamble_dropped (doc : List Char) :
    Message.read_messages doc
      = readLoop (List.dropWhile (fun l => !exactHeading l) (rustLines doc))
          none [] [] ∧
    ((∀ l ∈ rustLines doc, exactHeading l = false) →
      Message.read_messages doc = []) := by
  constructor
  · rw [Message.read_messages]
    conv_lhs =>
      rw [← List.takeWhile_append_dropWhile (fun l => !exactHeading l) (rustLines doc)]
    apply readLoop_preamble
    intro l hl
    have := List.mem_takeWhile_imp hl
    simpa using this
  · intro hall
    rw [Message.read_messages, ← List.append_nil (rustLines doc),
      readLoop_preamble (rustLines doc) [] [] [] hall]
    rfl

theorem C10_preamble_dropped_witness :
    Message.read_messages (str "junk\n# Junk\nmore") = [] :=
  (C10_preamble_dropped (str "junk\n# Junk\nmore")).2 (by decide)

end ChatCli
